import Mathlib

/-!
# Verification of `optionstat`

A shallow embedding of `src/optionstat/optionstat.py` (classes `Leg` and
`Optionstat`) together with proofs about its statistics engine.

Conventions of the embedding:
* Python floats are modelled by exact rationals `ℚ` (all the arithmetic the
  program performs on the values it builds is exact on rationals).
* `float('inf')` / `float('-inf')` are the extra constructors of `PyFloat`.
* Code that can raise a Python exception is modelled in `Option`/`Except`:
  `Leg.get_profit` raises `ZeroDivisionError` when `position == 0`
  (`abs(self._position) / self._position`), `Optionstat.stat` raises
  `IndexError` on an empty strategy (`self._strike_prices[-1]`) and
  `ZeroDivisionError` in the sign test (`prices[i] / abs(prices[i])`) and in
  the gradient/root divisions; each division site gets its own error tag so
  that theorems can talk about the failing site.
* `list.sort()` (stable ascending sort) is modelled by
  `List.insertionSort (· ≤ ·)`, a stable sort.
-/

/-- `PRICE_RANGE_PCT = 0.1`. -/
def PRICE_RANGE_PCT : ℚ := 1 / 10

/-- Python `int(x)`: truncation toward zero. -/
def pyInt (q : ℚ) : ℤ := if 0 ≤ q then ⌊q⌋ else ⌈q⌉

/-- Python `max(list)` on a non-empty list (junk value `0` on `[]`,
which the source never evaluates). -/
def listMax : List ℚ → ℚ
  | [] => 0
  | x :: xs => xs.foldl max x

/-- Python `min(list)` on a non-empty list (junk value `0` on `[]`). -/
def listMin : List ℚ → ℚ
  | [] => 0
  | x :: xs => xs.foldl min x

/-- A Python list comprehension whose body may raise: evaluates `f` left to
right, the first failure aborting the whole computation. -/
def mapOpt (f : α → Option β) : List α → Option (List β)
  | [] => some []
  | x :: xs => do
    let y ← f x
    let ys ← mapOpt f xs
    pure (y :: ys)

/-- Class `Leg`: a single leg of the option trade. -/
structure Leg where
  strike : ℚ
  premium : ℚ
  position : ℤ
  option_type : String
  contract_size : ℚ
  deriving DecidableEq, Repr

/-- The `price` local of `Leg.get_profit`: intrinsic value before the
`max(price, 0)` clamp; `0` when the option type is neither
`'Call'` nor `'Put'` (the source's initialisation `price = 0` survives). -/
def Leg.price (l : Leg) (underlying : ℚ) : ℚ :=
  if l.option_type = "Call" then underlying - l.strike
  else if l.option_type = "Put" then l.strike - underlying
  else 0

/-- The value `Leg.get_profit` computes when `position ≠ 0`:
`(max(price, 0) - premium) * abs(position) / position * abs(position)
* contract_size`. -/
def Leg.profitVal (l : Leg) (underlying : ℚ) : ℚ :=
  (max (l.price underlying) 0 - l.premium) * |(l.position : ℚ)| / (l.position : ℚ)
    * |(l.position : ℚ)| * l.contract_size

/-- `Leg.get_profit`; `none` models the `ZeroDivisionError` raised by
`abs(self._position) / self._position` when `position == 0`. -/
def Leg.get_profit (l : Leg) (underlying : ℚ) : Option ℚ :=
  if l.position = 0 then none else some (l.profitVal underlying)

/-- Class `Optionstat`: the strategy builder state
(`_option_trades`, `_strike_prices`, `_contract_size`). -/
structure Optionstat where
  option_trades : List Leg
  strike_prices : List ℚ
  contract_size : ℚ
  deriving DecidableEq, Repr

/-- `Optionstat.__init__(contract_size=100)`. -/
def Optionstat.init (contract_size : ℚ := 100) : Optionstat :=
  { option_trades := [], strike_prices := [], contract_size := contract_size }

/-- `Optionstat.add_trade`: constructs the `Leg` and appends it and its strike;
the source performs no validation of any argument. -/
def Optionstat.add_trade (st : Optionstat) (strike premium : ℚ) (position : ℤ)
    (option_type : String) : Optionstat :=
  { st with
    option_trades :=
      st.option_trades ++ [⟨strike, premium, position, option_type, st.contract_size⟩],
    strike_prices := st.strike_prices ++ [strike] }

/-- `sum([trade.get_profit(underlying) for trade in trades])`. -/
def totalProfit (legs : List Leg) (underlying : ℚ) : Option ℚ :=
  (mapOpt (fun trade => trade.get_profit underlying) legs).map List.sum

/-- The value of `totalProfit` when every position is nonzero. -/
def totalProfitVal (legs : List Leg) (underlying : ℚ) : ℚ :=
  (legs.map (fun trade => trade.profitVal underlying)).sum

/-- Error kinds of the embedded fallible operations, one per raise site:
`noLegs` for the empty-strategy failures (`IndexError` on
`self._strike_prices[-1]`, `ValueError` of `min([])`), `posZero` for the
`ZeroDivisionError` inside `Leg.get_profit`, `signDiv` for the
`ZeroDivisionError` of the sign test `prices[i] / abs(prices[i])`,
`gradDiv` for a zero `underlying_prices[i] - underlying_prices[i-1]`
denominator in the gradient, `rootDiv` for a zero `gradient` in the root. -/
inductive StatErr where
  | noLegs
  | posZero
  | signDiv
  | gradDiv
  | rootDiv
  deriving DecidableEq, Repr

/-- `Optionstat._get_price_range`. -/
def Optionstat.get_price_range (st : Optionstat) : Except StatErr (ℤ × ℤ) :=
  match st.strike_prices with
  | [] => Except.error StatErr.noLegs
  | x :: xs =>
    Except.ok (pyInt (listMin (x :: xs) * (1 - PRICE_RANGE_PCT)),
               pyInt (listMax (x :: xs) * (1 + PRICE_RANGE_PCT)))

/-- A Python float as `Optionstat.stat` produces it: either an exact finite
value or one of `float('inf')` / `float('-inf')`. -/
inductive PyFloat where
  | inf
  | ninf
  | fin (q : ℚ)
  deriving DecidableEq, Repr

/-- The dictionary returned by `Optionstat.stat`. -/
structure StatResult where
  legs : ℕ
  max_profit : PyFloat
  max_loss : PyFloat
  break_even : List ℚ
  deriving DecidableEq, Repr

/-- The break-even loop of `Optionstat.stat`, walking the anchor sequence as
adjacent pairs `(underlying_price, profit)`; mirrors
`for i in range(1, len(prices))` with `continue` on equal profits or equal
sign, and the three division sites tagged by their `StatErr`. -/
def breakEvenScan : List (ℚ × ℚ) → Except StatErr (List ℚ)
  | (x0, p0) :: (x1, p1) :: rest =>
    if p1 = p0 then breakEvenScan ((x1, p1) :: rest)
    else if p1 = 0 ∨ p0 = 0 then Except.error StatErr.signDiv
    else if p1 / |p1| = p0 / |p0| then breakEvenScan ((x1, p1) :: rest)
    else if x1 = x0 then Except.error StatErr.gradDiv
    else
      let gradient := (p1 - p0) / (x1 - x0)
      let intercept := p1 - gradient * x1
      if gradient = 0 then Except.error StatErr.rootDiv
      else (breakEvenScan ((x1, p1) :: rest)).map (fun bes => (-intercept / gradient) :: bes)
  | _ => Except.ok []

/-- The anchor price sequence of `Optionstat.stat`:
`[0] + sorted(strike_prices) + [sorted(strike_prices)[-1] + 1]`
(empty when there are no legs). -/
def Optionstat.anchors (st : Optionstat) : List ℚ :=
  match (st.strike_prices.insertionSort (· ≤ ·)).getLast? with
  | none => []
  | some k => 0 :: (st.strike_prices.insertionSort (· ≤ ·) ++ [k + 1])

/-- The `prices` list of `Optionstat.stat`: total profit at every anchor. -/
def Optionstat.anchorProfits (st : Optionstat) : Option (List ℚ) :=
  mapOpt (totalProfit st.option_trades) st.anchors

/-- The dictionary computation of `Optionstat.stat` (everything after the
in-place sort). `prices.getLastD 0` / `prices.dropLast.getLastD 0` are
`prices[-1]` / `prices[-2]`; the defaults are never used because `prices`
has at least three entries in this branch. -/
def Optionstat.statResult (st : Optionstat) : Except StatErr StatResult :=
  match (st.strike_prices.insertionSort (· ≤ ·)).getLast? with
  | none => Except.error StatErr.noLegs
  | some _ =>
    match st.anchorProfits with
    | none => Except.error StatErr.posZero
    | some prices =>
      match breakEvenScan (st.anchors.zip prices) with
      | Except.error e => Except.error e
      | Except.ok bes =>
        Except.ok
          { legs := (st.strike_prices.insertionSort (· ≤ ·)).length,
            max_profit :=
              if prices.getLastD 0 > prices.dropLast.getLastD 0 then PyFloat.inf
              else PyFloat.fin (listMax prices),
            max_loss :=
              if prices.getLastD 0 < prices.dropLast.getLastD 0 then PyFloat.ninf
              else PyFloat.fin (listMin prices),
            break_even := bes }

/-- `Optionstat.stat`: first component is the post-call state (the method
mutates `self._strike_prices` by the in-place `sort()`), second the
result. -/
def Optionstat.stat (st : Optionstat) : Optionstat × Except StatErr StatResult :=
  ({ st with strike_prices := st.strike_prices.insertionSort (· ≤ ·) }, st.statResult)

/-! ## Concrete strategies used by the theorems below -/

/-- A naked short call: strike 100, premium 2, position −1, contract size 100
(spec §8, Scenario A). -/
def shortCall : Optionstat := (Optionstat.init 100).add_trade 100 2 (-1) "Call"

/-- A long put: strike 50, premium 3, position 1, contract size 100
(spec §8, Scenario B). -/
def longPut : Optionstat := (Optionstat.init 100).add_trade 50 3 1 "Put"

/-- A bull call spread: long call 100 @ 5, short call 110 @ 2, contract size
100 (spec §8, Scenario C). -/
def bullCallSpread : Optionstat :=
  ((Optionstat.init 100).add_trade 100 5 1 "Call").add_trade 110 2 (-1) "Call"

/-- A strategy with negative strikes (the source accepts them): long put at
strike −5 premium 1 and short put at strike −10 premium 0, contract size 1.
Its anchor sequence `[0, -10, -5, -4]` is not monotone, which breaks the
linear-interpolation reasoning of the break-even scan. -/
def negStrikes : Optionstat :=
  ((Optionstat.init 1).add_trade (-5) 1 1 "Put").add_trade (-10) 0 (-1) "Put"

/-- A single call at strike 105: `105 * 1.1 = 115.5` exposes the truncation
(not ceiling) behaviour of `int()` in `_get_price_range`. -/
def strike105 : Optionstat := (Optionstat.init 100).add_trade 105 1 1 "Call"

/-- Three calls at strikes 90, 100, 110 (spec §8 price-range example). -/
def strikes90to110 : Optionstat :=
  (((Optionstat.init 100).add_trade 90 1 1 "Call").add_trade 100 1 1 "Call").add_trade
    110 1 1 "Call"

/-- A long call with zero premium: the aggregate profit is exactly 0 at the
anchors 0 and 100 and positive at 101, so the sign test divides by zero. -/
def zeroPremiumCall : Optionstat := (Optionstat.init 100).add_trade 100 0 1 "Call"

/-- Two legs added with strikes in descending order 110, 100: `stat` re-sorts
`_strike_prices` in place. -/
def descStrikes : Optionstat :=
  ((Optionstat.init 100).add_trade 110 1 1 "Call").add_trade 100 1 1 "Call"

/-! ## C1, C4, C5, C6, C7 (concrete parts), C10 -/

/-- C1: evaluation of `stat` on the naked short call of Scenario A
(strike 100, premium 2, position −1, Call, contract size 100). The code
returns `max_profit = 200`, `max_loss = -inf` as the claim states, but
`break_even = []`, not `[102.0]`: the payoff's real zero 102 lies beyond the
last anchor `101`, where the profits 200 and 100 have the same sign, so the
scan skips the tail segment. -/
theorem stat_short_call_scenario :
    shortCall.stat =
      ({ option_trades := [⟨100, 2, -1, "Call", 100⟩], strike_prices := [100],
         contract_size := 100 },
       Except.ok { legs := 1, max_profit := PyFloat.fin 200, max_loss := PyFloat.ninf,
                   break_even := [] }) := by
  simp only [shortCall, Optionstat.init, Optionstat.add_trade, Optionstat.stat,
    Optionstat.statResult, Optionstat.anchorProfits, Optionstat.anchors,
    totalProfit, mapOpt, Leg.get_profit, Leg.profitVal, Leg.price, breakEvenScan,
    listMax, listMin, List.insertionSort, List.orderedInsert]
  norm_num [breakEvenScan]

/-- C4 (counterexample): `add_trade` performs no validation; adding legs with
`position = 0`, an unknown option type, and a negative strike all succeed and
all three legs are appended. -/
theorem add_trade_invalid_inputs_counterexample :
    ((((Optionstat.init 100).add_trade 100 2 0 "Call").add_trade 100 2 1 "Banana").add_trade
        (-5) 2 1 "Call").option_trades.length = 3 := by
  rfl

/-- C4 (amended): `add_trade` never fails; for every input — including
`position = 0`, option types outside {Call, Put} and strikes ≤ 0 — it appends
the new `Leg` (built with the strategy's contract size) and records the
strike, leaving everything else unchanged. -/
theorem add_trade_no_validation (st : Optionstat) (strike premium : ℚ) (position : ℤ)
    (option_type : String) :
    (st.add_trade strike premium position option_type).option_trades
        = st.option_trades ++ [⟨strike, premium, position, option_type, st.contract_size⟩] ∧
    (st.add_trade strike premium position option_type).strike_prices
        = st.strike_prices ++ [strike] ∧
    (st.add_trade strike premium position option_type).contract_size = st.contract_size :=
  ⟨rfl, rfl, rfl⟩

/-- C5 (counterexample): a leg whose option type is neither `'Call'` nor
`'Put'` does not fail in `get_profit`; it returns the numeric value
`(0 - premium) * sign * |position| * contract_size` (here −200), because the
local `price` keeps its initial value 0. -/
theorem get_profit_unknown_type_counterexample :
    Leg.get_profit ⟨100, 2, 1, "Banana", 100⟩ 50 = some (-200) := by
  simp only [Leg.get_profit, Leg.profitVal, Leg.price, String.reduceEq, reduceIte]
  norm_num

/-- C5 (amended): for a leg whose option type is neither `'Call'` nor `'Put'`
and whose position is nonzero, `get_profit` silently returns the numeric
profit obtained from intrinsic value 0 — the same value for every underlying
price — instead of raising. -/
theorem get_profit_unknown_type_numeric (l : Leg) (underlying : ℚ)
    (hc : l.option_type ≠ "Call") (hp : l.option_type ≠ "Put") (h0 : l.position ≠ 0) :
    l.get_profit underlying =
      some ((0 - l.premium) * |(l.position : ℚ)| / (l.position : ℚ) * |(l.position : ℚ)|
        * l.contract_size) := by
  unfold Leg.get_profit Leg.profitVal Leg.price
  simp [hc, hp, h0]

/-- Witness for `get_profit_unknown_type_numeric`. -/
theorem get_profit_unknown_type_numeric_witness :
    Leg.get_profit ⟨100, 2, 1, "Banana", 100⟩ 7 = some (-200) :=
  (get_profit_unknown_type_numeric ⟨100, 2, 1, "Banana", 100⟩ 7 (by decide) (by decide)
    (by decide)).trans (by norm_num)

/-- C6: on an empty strategy both `stat` and `_get_price_range` fail with the
no-legs error (the `IndexError` of `self._strike_prices[-1]` resp. the
`ValueError` of `min([])`, both mapped to `StatErr.noLegs`) instead of
returning a result. -/
theorem empty_strategy_fails (cs : ℚ) :
    ((Optionstat.init cs).stat).2 = Except.error StatErr.noLegs ∧
    (Optionstat.init cs).get_price_range = Except.error StatErr.noLegs :=
  ⟨rfl, rfl⟩

/-- C7 (counterexample): on the single strike 105 the code returns
`(94, 115)`: the upper bound is `int(105 * 1.1) = int(115.5) = 115`
(truncation), not `ceil(115.5) = 116` as the claim states. -/
theorem get_price_range_ceil_counterexample :
    strike105.get_price_range = Except.ok (94, 115) ∧
    (115 : ℤ) ≠ ⌈(105 : ℚ) * (1 + PRICE_RANGE_PCT)⌉ := by
  constructor
  · norm_num [strike105, Optionstat.init, Optionstat.add_trade,
      Optionstat.get_price_range, pyInt, listMin, listMax, PRICE_RANGE_PCT]
  · have h : ⌈(105 : ℚ) * (1 + PRICE_RANGE_PCT)⌉ = 116 := by
      rw [show (105 : ℚ) * (1 + PRICE_RANGE_PCT) = 231 / 2 by norm_num [PRICE_RANGE_PCT]]
      rw [Int.ceil_eq_iff]
      norm_num
    omega

/-- C10 (counterexample): `stat` does not leave the strategy state unchanged —
after the call the recorded strike sequence `[110, 100]` has been sorted in
place to `[100, 110]`, losing the insertion order. -/
theorem stat_state_mutation_counterexample :
    (descStrikes.stat).1.strike_prices = [100, 110] ∧
    descStrikes.strike_prices = [110, 100] ∧
    (descStrikes.stat).1.strike_prices ≠ descStrikes.strike_prices := by
  refine ⟨rfl, rfl, by decide⟩

/-- C10 (amended): `stat` leaves the leg collection and the contract size
unchanged, but replaces `_strike_prices` by its in-place `sort()`: the new
sequence is a permutation of the old one, sorted ascending — insertion order
is not retained. -/
theorem stat_state_sorts_strikes (st : Optionstat) :
    (st.stat).1.option_trades = st.option_trades ∧
    (st.stat).1.contract_size = st.contract_size ∧
    (st.stat).1.strike_prices = st.strike_prices.insertionSort (· ≤ ·) ∧
    (st.stat).1.strike_prices.Perm st.strike_prices ∧
    (st.stat).1.strike_prices.Sorted (· ≤ ·) :=
  ⟨rfl, rfl, rfl, List.perm_insertionSort _ _, List.sorted_insertionSort _ _⟩

/-! ## Lemmas about `listMax` / `listMin` (Python `max` / `min`) -/

theorem foldl_max_init_le (x : ℚ) (l : List ℚ) : x ≤ l.foldl max x := by
  induction l generalizing x with
  | nil => exact le_refl x
  | cons y t ih => exact le_trans (le_max_left x y) (ih (max x y))

theorem le_foldl_max_of_mem {a : ℚ} {l : List ℚ} (x : ℚ) (ha : a ∈ l) : a ≤ l.foldl max x := by
  induction l generalizing x with
  | nil => cases ha
  | cons y t ih =>
    rw [List.foldl_cons]
    rcases List.mem_cons.mp ha with rfl | ha
    · exact le_trans (le_max_right x a) (foldl_max_init_le _ t)
    · exact ih (max x y) ha

theorem foldl_max_choice (x : ℚ) (l : List ℚ) : l.foldl max x = x ∨ l.foldl max x ∈ l := by
  induction l generalizing x with
  | nil => exact Or.inl rfl
  | cons y t ih =>
    rcases ih (max x y) with h | h
    · rcases max_choice x y with hm | hm
      · exact Or.inl (by rw [List.foldl_cons, h, hm])
      · exact Or.inr (by rw [List.foldl_cons, h, hm]; exact List.mem_cons_self y t)
    · exact Or.inr (List.mem_cons_of_mem y h)

theorem foldl_min_le_init (x : ℚ) (l : List ℚ) : l.foldl min x ≤ x := by
  induction l generalizing x with
  | nil => exact le_refl x
  | cons y t ih => exact le_trans (ih (min x y)) (min_le_left x y)

theorem foldl_min_le_of_mem {a : ℚ} {l : List ℚ} (x : ℚ) (ha : a ∈ l) : l.foldl min x ≤ a := by
  induction l generalizing x with
  | nil => cases ha
  | cons y t ih =>
    rw [List.foldl_cons]
    rcases List.mem_cons.mp ha with rfl | ha
    · exact le_trans (foldl_min_le_init _ t) (min_le_right x a)
    · exact ih (min x y) ha

theorem foldl_min_choice (x : ℚ) (l : List ℚ) : l.foldl min x = x ∨ l.foldl min x ∈ l := by
  induction l generalizing x with
  | nil => exact Or.inl rfl
  | cons y t ih =>
    rcases ih (min x y) with h | h
    · rcases min_choice x y with hm | hm
      · exact Or.inl (by rw [List.foldl_cons, h, hm])
      · exact Or.inr (by rw [List.foldl_cons, h, hm]; exact List.mem_cons_self y t)
    · exact Or.inr (List.mem_cons_of_mem y h)

theorem listMax_mem {l : List ℚ} (h : l ≠ []) : listMax l ∈ l := by
  cases l with
  | nil => exact absurd rfl h
  | cons x xs =>
    rcases foldl_max_choice x xs with hc | hc
    · rw [listMax, hc]; exact List.mem_cons_self x xs
    · exact List.mem_cons_of_mem x (by rw [listMax]; exact hc)

theorem le_listMax {a : ℚ} {l : List ℚ} (ha : a ∈ l) : a ≤ listMax l := by
  cases l with
  | nil => cases ha
  | cons x xs =>
    rcases List.mem_cons.mp ha with rfl | ha
    · exact foldl_max_init_le a xs
    · exact le_foldl_max_of_mem x ha

theorem listMin_mem {l : List ℚ} (h : l ≠ []) : listMin l ∈ l := by
  cases l with
  | nil => exact absurd rfl h
  | cons x xs =>
    rcases foldl_min_choice x xs with hc | hc
    · rw [listMin, hc]; exact List.mem_cons_self x xs
    · exact List.mem_cons_of_mem x (by rw [listMin]; exact hc)

theorem listMin_le {a : ℚ} {l : List ℚ} (ha : a ∈ l) : listMin l ≤ a := by
  cases l with
  | nil => cases ha
  | cons x xs =>
    rcases List.mem_cons.mp ha with rfl | ha
    · exact foldl_min_le_init a xs
    · exact foldl_min_le_of_mem x ha

theorem pyInt_of_nonneg {q : ℚ} (h : 0 ≤ q) : pyInt q = ⌊q⌋ := if_pos h

/-! ## C7 (amended theorem and witness) -/

/-- C7 (amended): for every non-empty strategy with nonnegative strikes,
`_get_price_range` returns `(⌊min*0.9⌋, ⌊max*1.1⌋)` — Python `int()`
truncates, so the upper bound is a floor, not a ceiling. -/
theorem get_price_range_floor (st : Optionstat) (hne : st.strike_prices ≠ [])
    (hnn : ∀ k ∈ st.strike_prices, 0 ≤ k) :
    st.get_price_range =
      Except.ok (⌊listMin st.strike_prices * (1 - PRICE_RANGE_PCT)⌋,
                 ⌊listMax st.strike_prices * (1 + PRICE_RANGE_PCT)⌋) := by
  rcases hl : st.strike_prices with _ | ⟨x, xs⟩
  · exact absurd hl hne
  · have hx : (0:ℚ) ≤ x := hnn x (by rw [hl]; exact List.mem_cons_self x xs)
    have hmin : (0:ℚ) ≤ listMin (x :: xs) := by
      have := listMin_mem (l := x :: xs) (by simp)
      exact hnn _ (by rw [hl]; exact this)
    have hmax : (0:ℚ) ≤ listMax (x :: xs) :=
      le_trans hx (le_listMax (List.mem_cons_self x xs))
    simp only [Optionstat.get_price_range, hl]
    rw [pyInt_of_nonneg (by unfold PRICE_RANGE_PCT; nlinarith),
        pyInt_of_nonneg (by unfold PRICE_RANGE_PCT; nlinarith)]

/-- Witness for `get_price_range_floor`: on strikes `[90, 100, 110]` the
result is `(81, 121)`, matching the spec's concrete example. -/
theorem get_price_range_floor_witness :
    strikes90to110.get_price_range = Except.ok (81, 121) := by
  have h := get_price_range_floor strikes90to110
    (by simp [strikes90to110, Optionstat.init, Optionstat.add_trade])
    (by intro k hk
        simp [strikes90to110, Optionstat.init, Optionstat.add_trade] at hk
        rcases hk with rfl | rfl | rfl <;> norm_num)
  rw [h]
  norm_num [strikes90to110, Optionstat.init, Optionstat.add_trade, listMin, listMax,
    PRICE_RANGE_PCT]

/-! ## Lemmas about `mapOpt`, `totalProfit` and sorted lists -/

theorem mapOpt_cons_some {f : α → Option β} {x : α} {xs : List α} {ys : List β}
    (h : mapOpt f (x :: xs) = some ys) :
    ∃ y ys', f x = some y ∧ mapOpt f xs = some ys' ∧ ys = y :: ys' := by
  cases hfx : f x with
  | none => simp [mapOpt, hfx] at h
  | some y =>
    cases hxs : mapOpt f xs with
    | none => simp [mapOpt, hfx, hxs] at h
    | some ys' =>
      simp only [mapOpt, hfx, hxs, Option.bind_eq_bind, Option.some_bind, Option.pure_def] at h
      exact ⟨y, ys', rfl, rfl, (Option.some.inj h).symm⟩

theorem mapOpt_eq_map {f : α → Option β} {g : α → β} :
    ∀ (xs : List α), (∀ x ∈ xs, f x = some (g x)) → mapOpt f xs = some (xs.map g) := by
  intro xs
  induction xs with
  | nil => intro _; rfl
  | cons x t ih =>
    intro h
    simp only [mapOpt, h x (List.mem_cons_self x t), ih fun a ha => h a (List.mem_cons_of_mem x ha),
      Option.bind_eq_bind, Option.some_bind, List.map_cons]
    rfl

/-- A successful total-profit evaluation forces every position to be
nonzero. -/
theorem totalProfit_position_ne {legs : List Leg} {u v : ℚ}
    (h : totalProfit legs u = some v) : ∀ l ∈ legs, l.position ≠ 0 := by
  induction legs generalizing v with
  | nil => intro l hl; cases hl
  | cons t ts ih =>
    cases hm : mapOpt (fun tr => tr.get_profit u) (t :: ts) with
    | none => rw [totalProfit, hm] at h; cases h
    | some ys =>
      obtain ⟨y, ys', hfy, hys', rfl⟩ := mapOpt_cons_some hm
      intro l hl
      rcases List.mem_cons.mp hl with rfl | hl
      · intro h0; rw [Leg.get_profit, if_pos h0] at hfy; cases hfy
      · exact ih (v := ys'.sum) (by rw [totalProfit, hys']; rfl) l hl

/-- When every position is nonzero, `totalProfit` succeeds and returns
`totalProfitVal`. -/
theorem totalProfit_eq_val {legs : List Leg} (h : ∀ l ∈ legs, l.position ≠ 0) (u : ℚ) :
    totalProfit legs u = some (totalProfitVal legs u) := by
  rw [totalProfit,
    mapOpt_eq_map (g := fun t => t.profitVal u) legs fun x hx => by
      rw [Leg.get_profit, if_neg (h x hx)]]
  rfl

/-- In an ascending-sorted list every member is at most the last element. -/
theorem sorted_le_getLast :
    ∀ {l : List ℚ}, l.Sorted (· ≤ ·) → ∀ {a k : ℚ}, a ∈ l → l.getLast? = some k → a ≤ k := by
  intro l
  induction l with
  | nil => intro _ _ _ ha _; cases ha
  | cons x t ih =>
    intro hs a k ha hk
    rcases List.sorted_cons.mp hs with ⟨hx, ht⟩
    cases t with
    | nil =>
      rcases List.mem_cons.mp ha with rfl | h
      · cases hk; exact le_refl a
      · cases h
    | cons y t' =>
      have hk' : (y :: t').getLast? = some k := hk
      rcases List.mem_cons.mp ha with rfl | h
      · exact le_trans (hx _ (List.mem_of_mem_getLast? hk')) (le_refl k) |>.trans (le_refl k)
      · exact ih ht h hk'

/-- The last element of the sorted strike list is the maximum strike. -/
theorem sorted_getLast_eq_listMax {st : Optionstat} {k : ℚ}
    (hk : (st.strike_prices.insertionSort (· ≤ ·)).getLast? = some k) :
    k = listMax st.strike_prices := by
  have hmem : k ∈ st.strike_prices :=
    (List.mem_insertionSort (· ≤ ·)).mp (List.mem_of_mem_getLast? hk)
  have hne : st.strike_prices ≠ [] := by
    intro h0; rw [h0] at hmem; cases hmem
  have h1 : k ≤ listMax st.strike_prices := le_listMax hmem
  have h2 : listMax st.strike_prices ≤ k :=
    sorted_le_getLast (List.sorted_insertionSort (· ≤ ·) st.strike_prices)
      ((List.mem_insertionSort (· ≤ ·)).mpr (listMax_mem hne)) hk
  exact le_antisymm h1 h2

/-- Destructor for a successful `statResult`. -/
theorem statResult_ok_elim {st : Optionstat} {res : StatResult}
    (h : st.statResult = Except.ok res) :
    ∃ k prices, (st.strike_prices.insertionSort (· ≤ ·)).getLast? = some k ∧
      st.anchorProfits = some prices ∧
      breakEvenScan (st.anchors.zip prices) = Except.ok res.break_even ∧
      res.legs = (st.strike_prices.insertionSort (· ≤ ·)).length ∧
      res.max_profit = (if prices.getLastD 0 > prices.dropLast.getLastD 0 then PyFloat.inf
        else PyFloat.fin (listMax prices)) ∧
      res.max_loss = (if prices.getLastD 0 < prices.dropLast.getLastD 0 then PyFloat.ninf
        else PyFloat.fin (listMin prices)) := by
  unfold Optionstat.statResult at h
  split at h
  · cases h
  · rename_i k hgl
    split at h
    · cases h
    · rename_i prices hp
      split at h
      · cases h
      · rename_i bes hscan
        cases h
        exact ⟨k, prices, hgl, hp, hscan, rfl, rfl, rfl⟩

/-! ## C2: max-profit / max-loss characterization -/

/-- C2: for a strategy whose `stat` succeeds, `max_profit` is `+inf` exactly
when the profit at the last anchor (the highest strike plus 1) strictly
exceeds the profit at the second-to-last anchor (the highest strike), and is
otherwise the maximum profit over all anchors; `max_loss` symmetrically with
`-inf` and the minimum. -/
theorem stat_max_profit_max_loss (st st2 : Optionstat) (res : StatResult) (prices : List ℚ)
    (hok : st.stat = (st2, Except.ok res)) (hp : st.anchorProfits = some prices) :
    ∃ pLast pPrev : ℚ,
      st.anchors.getLast? = some (listMax st.strike_prices + 1) ∧
      totalProfit st.option_trades (listMax st.strike_prices + 1) = some pLast ∧
      totalProfit st.option_trades (listMax st.strike_prices) = some pPrev ∧
      prices.getLast? = some pLast ∧
      prices.dropLast.getLast? = some pPrev ∧
      (res.max_profit = PyFloat.inf ↔ pPrev < pLast) ∧
      (¬ pPrev < pLast → res.max_profit = PyFloat.fin (listMax prices)) ∧
      (res.max_loss = PyFloat.ninf ↔ pLast < pPrev) ∧
      (¬ pLast < pPrev → res.max_loss = PyFloat.fin (listMin prices)) := by
  have hres : st.statResult = Except.ok res := congrArg Prod.snd hok
  obtain ⟨k, prices', hgl, hp', hscan, hlegs, hmp, hml⟩ := statResult_ok_elim hres
  have hpp : prices' = prices := by
    rw [hp] at hp'; exact (Option.some.inj hp').symm
  rw [hpp] at hscan hmp hml
  have hanch : st.anchors = 0 :: (st.strike_prices.insertionSort (· ≤ ·) ++ [k + 1]) := by
    unfold Optionstat.anchors; rw [hgl]
  have hpcopy := hp
  rw [Optionstat.anchorProfits, hanch] at hpcopy
  obtain ⟨y, ys, hf0, -, -⟩ := mapOpt_cons_some hpcopy
  have hpos := totalProfit_position_ne hf0
  have hFval : ∀ u, totalProfit st.option_trades u
      = some (totalProfitVal st.option_trades u) := totalProfit_eq_val hpos
  have hmap : prices = st.anchors.map (totalProfitVal st.option_trades) := by
    have h2 := mapOpt_eq_map (f := totalProfit st.option_trades)
      (g := totalProfitVal st.option_trades) st.anchors fun x _ => hFval x
    have hp3 := hp
    rw [Optionstat.anchorProfits, h2] at hp3
    exact (Option.some.inj hp3).symm
  have hplast : prices.getLast? = some (totalProfitVal st.option_trades (k + 1)) := by
    rw [hmap, hanch, ← List.cons_append, List.getLast?_map, List.getLast?_concat]
    rfl
  have hdrop : prices.dropLast.getLast? = some (totalProfitVal st.option_trades k) := by
    rw [hmap, hanch, ← List.cons_append, List.map_append]
    have hsingle : List.map (totalProfitVal st.option_trades) [k + 1]
        = [totalProfitVal st.option_trades (k + 1)] := rfl
    rw [hsingle, List.dropLast_concat, List.getLast?_map]
    cases hS : st.strike_prices.insertionSort (· ≤ ·) with
    | nil => rw [hS] at hgl; cases hgl
    | cons s S' =>
      rw [hS] at hgl
      have h0 : ((0 : ℚ) :: s :: S').getLast? = (s :: S').getLast? := rfl
      rw [h0, hgl]
      rfl
  have hkmax : k = listMax st.strike_prices := sorted_getLast_eq_listMax hgl
  subst hkmax
  have e1 : prices.getLastD 0
      = totalProfitVal st.option_trades (listMax st.strike_prices + 1) := by
    rw [List.getLastD_eq_getLast?, hplast]; rfl
  have e2 : prices.dropLast.getLastD 0
      = totalProfitVal st.option_trades (listMax st.strike_prices) := by
    rw [List.getLastD_eq_getLast?, hdrop]; rfl
  refine ⟨totalProfitVal st.option_trades (listMax st.strike_prices + 1),
          totalProfitVal st.option_trades (listMax st.strike_prices),
          ?_, hFval _, hFval _, hplast, hdrop, ?_, ?_, ?_, ?_⟩
  · rw [hanch, ← List.cons_append, List.getLast?_concat]
  · rw [hmp, e1, e2]
    by_cases hgt : totalProfitVal st.option_trades (listMax st.strike_prices)
        < totalProfitVal st.option_trades (listMax st.strike_prices + 1)
    · simp [hgt]
    · simp [hgt]
  · intro hgt
    rw [hmp, e1, e2, if_neg hgt]
  · rw [hml, e1, e2]
    by_cases hlt : totalProfitVal st.option_trades (listMax st.strike_prices + 1)
        < totalProfitVal st.option_trades (listMax st.strike_prices)
    · simp [hlt]
    · simp [hlt]
  · intro hlt
    rw [hml, e1, e2, if_neg hlt]

/-- Witness for `stat_max_profit_max_loss`: the long put of Scenario B
(strike 50, premium 3, position 1), whose anchor profits are
`[4700, -300, -300]` and whose stat is
`max_profit = 4700`, `max_loss = -300`, `break_even = [47]`. -/
theorem stat_max_profit_max_loss_witness :
    ∃ pLast pPrev : ℚ,
      longPut.anchors.getLast? = some (listMax longPut.strike_prices + 1) ∧
      totalProfit longPut.option_trades (listMax longPut.strike_prices + 1) = some pLast ∧
      totalProfit longPut.option_trades (listMax longPut.strike_prices) = some pPrev ∧
      [(4700 : ℚ), -300, -300].getLast? = some pLast ∧
      [(4700 : ℚ), -300, -300].dropLast.getLast? = some pPrev ∧
      ((StatResult.mk 1 (PyFloat.fin 4700) (PyFloat.fin (-300)) [47]).max_profit
          = PyFloat.inf ↔ pPrev < pLast) ∧
      (¬ pPrev < pLast → (StatResult.mk 1 (PyFloat.fin 4700) (PyFloat.fin (-300)) [47]).max_profit
          = PyFloat.fin (listMax [(4700 : ℚ), -300, -300])) ∧
      ((StatResult.mk 1 (PyFloat.fin 4700) (PyFloat.fin (-300)) [47]).max_loss
          = PyFloat.ninf ↔ pLast < pPrev) ∧
      (¬ pLast < pPrev → (StatResult.mk 1 (PyFloat.fin 4700) (PyFloat.fin (-300)) [47]).max_loss
          = PyFloat.fin (listMin [(4700 : ℚ), -300, -300])) :=
  stat_max_profit_max_loss longPut
    { option_trades := [⟨50, 3, 1, "Put", 100⟩], strike_prices := [50], contract_size := 100 }
    (StatResult.mk 1 (PyFloat.fin 4700) (PyFloat.fin (-300)) [47])
    [(4700 : ℚ), -300, -300]
    (by simp only [longPut, Optionstat.init, Optionstat.add_trade, Optionstat.stat,
          Optionstat.statResult, Optionstat.anchorProfits, Optionstat.anchors,
          totalProfit, mapOpt, Leg.get_profit, Leg.profitVal, Leg.price, breakEvenScan,
          listMax, listMin, List.insertionSort, List.orderedInsert,
          String.reduceEq, reduceIte]
        norm_num [breakEvenScan, Except.map])
    (by simp only [longPut, Optionstat.init, Optionstat.add_trade,
          Optionstat.anchorProfits, Optionstat.anchors,
          totalProfit, mapOpt, Leg.get_profit, Leg.profitVal, Leg.price,
          List.insertionSort, List.orderedInsert, String.reduceEq, reduceIte]
        norm_num)

/-! ## Lemmas about the break-even scan (C8, C9 support) -/

/-- Pointwise reading of a successful `mapOpt`. -/
theorem mapOpt_get? {f : α → Option β} :
    ∀ {xs : List α} {ys : List β}, mapOpt f xs = some ys →
    ∀ {i : ℕ} {x : α} {y : β}, xs.get? i = some x → ys.get? i = some y → f x = some y := by
  intro xs
  induction xs with
  | nil => intro ys h i x y hx _; cases hx
  | cons a t ih =>
    intro ys h i x y hx hy
    obtain ⟨b, ys', hfb, hys', rfl⟩ := mapOpt_cons_some h
    cases i with
    | zero =>
      cases Option.some.inj hx
      cases Option.some.inj hy
      exact hfb
    | succ n => exact ih hys' hx hy

/-- A successful scan of a tail follows from a successful scan of the whole
list. -/
theorem breakEvenScan_tail {A B : ℚ × ℚ} {rest : List (ℚ × ℚ)} {bes : List ℚ}
    (h : breakEvenScan (A :: B :: rest) = Except.ok bes) :
    ∃ bes', breakEvenScan (B :: rest) = Except.ok bes' := by
  obtain ⟨x0, p0⟩ := A; obtain ⟨x1, p1⟩ := B
  simp only [breakEvenScan] at h
  split_ifs at h with h1 h2 h3 h4 h5
  · exact ⟨bes, h⟩
  · exact ⟨bes, h⟩
  · cases hs : breakEvenScan ((x1, p1) :: rest) with
    | error e => rw [hs] at h; cases h
    | ok t => exact ⟨t, rfl⟩

/-- If the scan succeeds, no adjacent pair has unequal profits one of which is
zero (such a pair makes the sign test divide by zero). -/
theorem breakEvenScan_zero_pair :
    ∀ {pairs : List (ℚ × ℚ)} {bes : List ℚ}, breakEvenScan pairs = Except.ok bes →
    ∀ {i : ℕ} {A B : ℚ × ℚ}, pairs.get? i = some A → pairs.get? (i + 1) = some B →
      A.2 ≠ B.2 → A.2 ≠ 0 ∧ B.2 ≠ 0 := by
  intro pairs
  induction pairs with
  | nil => intro bes h i A B hA _ _; cases hA
  | cons P tail ih =>
    intro bes h i A B hA hB hne
    cases tail with
    | nil =>
      rw [List.get?_cons_succ] at hB
      cases i <;> cases hB
    | cons Q rest =>
      cases i with
      | zero =>
        rw [List.get?_cons_zero] at hA
        rw [List.get?_cons_succ, List.get?_cons_zero] at hB
        obtain rfl : P = A := Option.some.inj hA
        obtain rfl : Q = B := Option.some.inj hB
        obtain ⟨x0, p0⟩ := P
        obtain ⟨x1, p1⟩ := Q
        simp only [breakEvenScan] at h
        split_ifs at h with h1 h2 h3 h4 h5
        · exact absurd h1.symm hne
        · exact ⟨fun hz => h2 (Or.inr hz), fun hz => h2 (Or.inl hz)⟩
        · exact ⟨fun hz => h2 (Or.inr hz), fun hz => h2 (Or.inl hz)⟩
      | succ n =>
        obtain ⟨bes', hs⟩ := breakEvenScan_tail h
        exact ih hs hA hB hne

/-- All pairs in the zipped anchor/profit list evaluate by `totalProfit`. -/
theorem anchor_pairs_eval {st : Optionstat} {prices : List ℚ}
    (hp : st.anchorProfits = some prices) :
    ∀ {i : ℕ} {A : ℚ × ℚ}, (st.anchors.zip prices).get? i = some A →
      totalProfit st.option_trades A.1 = some A.2 := by
  intro i A hA
  rcases (List.get?_zip_eq_some _ _ _ _).mp hA with ⟨hx, hpr⟩
  exact mapOpt_get? hp hx hpr

/-- On a pair list where equal first components force equal second components
(true for anchors zipped with their profits), the only error the scan can
produce is the sign-test division by zero. -/
theorem breakEvenScan_error_signDiv :
    ∀ {pairs : List (ℚ × ℚ)},
    (∀ {i : ℕ} {A B : ℚ × ℚ}, pairs.get? i = some A → pairs.get? (i + 1) = some B →
      A.1 = B.1 → A.2 = B.2) →
    ∀ {e : StatErr}, breakEvenScan pairs = Except.error e → e = StatErr.signDiv := by
  intro pairs
  induction pairs with
  | nil => intro _ e h; cases h
  | cons P tail ih =>
    intro hadj e h
    cases tail with
    | nil => cases h
    | cons Q rest =>
      have hadj' : ∀ {i : ℕ} {A B : ℚ × ℚ}, (Q :: rest).get? i = some A →
          (Q :: rest).get? (i + 1) = some B → A.1 = B.1 → A.2 = B.2 := by
        intro i A B hA hB
        exact hadj (i := i + 1) (by rw [List.get?_cons_succ]; exact hA)
          (by rw [List.get?_cons_succ]; exact hB)
      obtain ⟨x0, p0⟩ := P; obtain ⟨x1, p1⟩ := Q
      simp only [breakEvenScan] at h
      split_ifs at h with h1 h2 h3 h4 h5
      · exact ih hadj' h
      · exact (Except.error.inj h).symm
      · exact ih hadj' h
      · exact absurd (hadj (i := 0) rfl rfl h4.symm).symm h1
      · rcases div_eq_zero_iff.mp h5 with hz | hz
        · exact absurd (sub_eq_zero.mp hz) h1
        · exact absurd (sub_eq_zero.mp hz) h4
      · cases hs : breakEvenScan ((x1, p1) :: rest) with
        | error e' =>
          rw [hs] at h
          cases Except.error.inj h
          exact ih hadj' hs
        | ok t => rw [hs] at h; cases h

theorem mapOpt_length {f : α → Option β} :
    ∀ {xs : List α} {ys : List β}, mapOpt f xs = some ys → ys.length = xs.length := by
  intro xs
  induction xs with
  | nil => intro ys h; cases Option.some.inj h; rfl
  | cons a t ih =>
    intro ys h
    obtain ⟨y, ys', hfy, hys', rfl⟩ := mapOpt_cons_some h
    simp [ih hys']

/-! ## C8: a zero anchor profit next to a nonzero one makes `stat` fail -/

/-- C8: if the aggregate profit is exactly zero at some anchor while the
profit at the adjacent anchor is different (hence nonzero), the sign test
`prices[i] / abs(prices[i])` divides by zero and `stat` raises instead of
returning statistics. -/
theorem stat_zero_anchor_fails (st : Optionstat) (prices : List ℚ)
    (hp : st.anchorProfits = some prices)
    (hzero : ∃ i p q, prices.get? i = some p ∧ prices.get? (i + 1) = some q ∧
      p ≠ q ∧ (p = 0 ∨ q = 0)) :
    (st.stat).2 = Except.error StatErr.signDiv := by
  obtain ⟨i, p, q, hip, hiq, hpq, hz⟩ := hzero
  show st.statResult = Except.error StatErr.signDiv
  unfold Optionstat.statResult
  split
  · rename_i hgl
    exfalso
    have hanch : st.anchors = [] := by unfold Optionstat.anchors; rw [hgl]
    rw [Optionstat.anchorProfits, hanch] at hp
    have hpn : prices = [] := (Option.some.inj hp).symm
    rw [hpn] at hip
    cases hip
  · rename_i k hgl
    split
    · rename_i hpn
      rw [hp] at hpn; cases hpn
    · rename_i prices' hp'
      have hpp : prices' = prices := by rw [hp] at hp'; exact (Option.some.inj hp').symm
      split
      · rename_i e hscan
        rw [hpp] at hscan
        have he : e = StatErr.signDiv := breakEvenScan_error_signDiv
          (fun {j A B} hA hB hxy => by
            have h1 := anchor_pairs_eval hp hA
            have h2 := anchor_pairs_eval hp hB
            rw [hxy] at h1
            exact Option.some.inj (h1.symm.trans h2))
          hscan
        rw [he]
      · rename_i bes hscan
        exfalso
        rw [hpp] at hscan
        have hlen : prices.length = st.anchors.length := by
          have := hp
          rw [Optionstat.anchorProfits] at this
          exact mapOpt_length this
        have hi1 : i < prices.length := by
          rcases List.get?_eq_some.mp hip with ⟨hlt, -⟩
          exact hlt
        have hi2 : i + 1 < prices.length := by
          rcases List.get?_eq_some.mp hiq with ⟨hlt, -⟩
          exact hlt
        have ha1 : st.anchors.get? i = some (st.anchors.get ⟨i, by rw [← hlen]; exact hi1⟩) :=
          List.get?_eq_get _
        have ha2 : st.anchors.get? (i + 1)
            = some (st.anchors.get ⟨i + 1, by rw [← hlen]; exact hi2⟩) :=
          List.get?_eq_get _
        have hzipA : (st.anchors.zip prices).get? i
            = some (st.anchors.get ⟨i, by rw [← hlen]; exact hi1⟩, p) :=
          (List.get?_zip_eq_some _ _ _ _).mpr ⟨ha1, hip⟩
        have hzipB : (st.anchors.zip prices).get? (i + 1)
            = some (st.anchors.get ⟨i + 1, by rw [← hlen]; exact hi2⟩, q) :=
          (List.get?_zip_eq_some _ _ _ _).mpr ⟨ha2, hiq⟩
        obtain ⟨hp0, hq0⟩ := breakEvenScan_zero_pair hscan hzipA hzipB hpq
        rcases hz with hz | hz
        · exact hp0 hz
        · exact hq0 hz

/-- Witness for `stat_zero_anchor_fails`: a long call with zero premium; its
anchor profits are `[0, 0, 100]`, and `stat` fails in the sign test. -/
theorem stat_zero_anchor_fails_witness :
    (zeroPremiumCall.stat).2 = Except.error StatErr.signDiv :=
  stat_zero_anchor_fails zeroPremiumCall [0, 0, 100]
    (by simp only [zeroPremiumCall, Optionstat.init, Optionstat.add_trade,
          Optionstat.anchorProfits, Optionstat.anchors,
          totalProfit, mapOpt, Leg.get_profit, Leg.profitVal, Leg.price,
          List.insertionSort, List.orderedInsert, String.reduceEq, reduceIte]
        norm_num)
    ⟨1, 0, 100, rfl, rfl, by norm_num, Or.inl rfl⟩

/-! ## C9: duplicate strikes never cause a division by a zero price gap -/

/-- C9: the gradient's denominator `underlying_prices[i] -
underlying_prices[i-1]` is never zero when it is evaluated: equal adjacent
anchor prices give equal aggregate profits, and the equal-profit `continue`
fires first. So `stat` never fails with `gradDiv`, for any strategy —
including strategies with duplicate strikes. -/
theorem stat_no_gradient_div (st : Optionstat) :
    (st.stat).2 ≠ Except.error StatErr.gradDiv := by
  show st.statResult ≠ Except.error StatErr.gradDiv
  unfold Optionstat.statResult
  split
  · intro h; exact StatErr.noConfusion (Except.error.inj h)
  · rename_i k hgl
    split
    · intro h; exact StatErr.noConfusion (Except.error.inj h)
    · rename_i prices hp
      split
      · rename_i e hscan
        intro h
        have he : e = StatErr.signDiv := breakEvenScan_error_signDiv
          (fun {j A B} hA hB hxy => by
            have h1 := anchor_pairs_eval hp hA
            have h2 := anchor_pairs_eval hp hB
            rw [hxy] at h1
            exact Option.some.inj (h1.symm.trans h2))
          hscan
        rw [he] at h
        exact StatErr.noConfusion (Except.error.inj h)
      · intro h; cases h

/-! ## Piecewise linearity of the payoff (C3 support) -/

theorem div_abs_of_pos {q : ℚ} (h : 0 < q) : q / |q| = 1 := by
  rw [abs_of_pos h]; exact div_self (ne_of_gt h)

theorem div_abs_of_neg {q : ℚ} (h : q < 0) : q / |q| = -1 := by
  rw [abs_of_neg h, div_neg, div_self (ne_of_lt h)]

/-- Two nonzero values whose `q / |q|` signs differ have strictly opposite
signs. -/
theorem sign_div_cases {p0 p1 : ℚ} (h0 : p0 ≠ 0) (h1 : p1 ≠ 0)
    (hne : p1 / |p1| ≠ p0 / |p0|) : p0 < 0 ∧ 0 < p1 ∨ p1 < 0 ∧ 0 < p0 := by
  rcases lt_trichotomy p0 0 with hp0 | hp0 | hp0
  · rcases lt_trichotomy p1 0 with hp1 | hp1 | hp1
    · exact absurd (by rw [div_abs_of_neg hp0, div_abs_of_neg hp1]) hne
    · exact absurd hp1 h1
    · exact Or.inl ⟨hp0, hp1⟩
  · exact absurd hp0 h0
  · rcases lt_trichotomy p1 0 with hp1 | hp1 | hp1
    · exact Or.inr ⟨hp1, hp0⟩
    · exact absurd hp1 h1
    · exact absurd (by rw [div_abs_of_pos hp0, div_abs_of_pos hp1]) hne

/-- A single leg's profit is affine on any interval `[a, b]` that does not
contain its strike in the interior (strike below `a` or above `b`). -/
theorem profitVal_affine (l : Leg) {a b x : ℚ} (hax : a ≤ x) (hxb : x ≤ b)
    (hK : l.strike ≤ a ∨ b ≤ l.strike) :
    (b - a) * l.profitVal x = (b - x) * l.profitVal a + (x - a) * l.profitVal b := by
  unfold Leg.profitVal Leg.price
  by_cases hc : l.option_type = "Call"
  · simp only [if_pos hc]
    rcases hK with hK | hK
    · rw [max_eq_left (by linarith : (0:ℚ) ≤ a - l.strike),
          max_eq_left (by linarith : (0:ℚ) ≤ x - l.strike),
          max_eq_left (by linarith : (0:ℚ) ≤ b - l.strike)]
      ring
    · rw [max_eq_right (by linarith : a - l.strike ≤ (0:ℚ)),
          max_eq_right (by linarith : x - l.strike ≤ (0:ℚ)),
          max_eq_right (by linarith : b - l.strike ≤ (0:ℚ))]
      ring
  · by_cases hp : l.option_type = "Put"
    · simp only [if_neg hc, if_pos hp]
      rcases hK with hK | hK
      · rw [max_eq_right (by linarith : l.strike - a ≤ (0:ℚ)),
            max_eq_right (by linarith : l.strike - x ≤ (0:ℚ)),
            max_eq_right (by linarith : l.strike - b ≤ (0:ℚ))]
        ring
      · rw [max_eq_left (by linarith : (0:ℚ) ≤ l.strike - a),
            max_eq_left (by linarith : (0:ℚ) ≤ l.strike - x),
            max_eq_left (by linarith : (0:ℚ) ≤ l.strike - b)]
        ring
    · simp only [if_neg hc, if_neg hp, max_self]
      ring

/-- The aggregate payoff is affine on an interval free of interior strikes. -/
theorem totalProfitVal_affine {legs : List Leg} {a b x : ℚ} (hax : a ≤ x) (hxb : x ≤ b)
    (hK : ∀ l ∈ legs, l.strike ≤ a ∨ b ≤ l.strike) :
    (b - a) * totalProfitVal legs x
      = (b - x) * totalProfitVal legs a + (x - a) * totalProfitVal legs b := by
  induction legs with
  | nil => simp [totalProfitVal]
  | cons l t ih =>
    have h1 := profitVal_affine l hax hxb (hK l (List.mem_cons_self l t))
    have h2 := ih fun m hm => hK m (List.mem_cons_of_mem l hm)
    simp only [totalProfitVal, List.map_cons, List.sum_cons] at h2 ⊢
    linear_combination h1 + h2

/-- The root computed by linear interpolation between two anchors of strictly
opposite sign lies strictly between them and is an exact zero of any function
that is affine on the segment and matches the endpoint values. -/
theorem interp_root {F : ℚ → ℚ} {x0 x1 p0 p1 : ℚ}
    (hx : x0 < x1) (h0 : F x0 = p0) (h1 : F x1 = p1)
    (haff : ∀ x, x0 ≤ x → x ≤ x1 →
      (x1 - x0) * F x = (x1 - x) * F x0 + (x - x0) * F x1)
    (hsign : p0 < 0 ∧ 0 < p1 ∨ p1 < 0 ∧ 0 < p0) :
    x0 < -(p1 - (p1 - p0) / (x1 - x0) * x1) / ((p1 - p0) / (x1 - x0)) ∧
    -(p1 - (p1 - p0) / (x1 - x0) * x1) / ((p1 - p0) / (x1 - x0)) < x1 ∧
    F (-(p1 - (p1 - p0) / (x1 - x0) * x1) / ((p1 - p0) / (x1 - x0))) = 0 := by
  have hxne : x1 - x0 ≠ 0 := sub_ne_zero.mpr (ne_of_gt hx)
  have hpne : p1 - p0 ≠ 0 := by
    rcases hsign with ⟨ha, hb⟩ | ⟨ha, hb⟩ <;> intro hc <;> nlinarith [sub_eq_zero.mp hc]
  set g := (p1 - p0) / (x1 - x0) with hgdef
  have hgne : g ≠ 0 := div_ne_zero hpne hxne
  have hgx : g * (x1 - x0) = p1 - p0 := div_mul_cancel₀ _ hxne
  set r := -(p1 - g * x1) / g with hrdef
  have hr1 : g * r = -(p1 - g * x1) := by
    rw [hrdef, mul_comm, div_mul_cancel₀ _ hgne]
  have hr2 : r - x0 = -p0 / g := by
    rw [eq_div_iff hgne]
    linear_combination hr1 + hgx
  have hr3 : x1 - r = p1 / g := by
    rw [eq_div_iff hgne]
    linear_combination -hr1
  have hbounds : x0 < r ∧ r < x1 := by
    rcases hsign with ⟨hp0, hp1⟩ | ⟨hp1, hp0⟩
    · have hgpos : 0 < g := div_pos (by linarith) (by linarith)
      constructor
      · nlinarith [div_pos (by linarith : (0:ℚ) < -p0) hgpos, hr2]
      · nlinarith [div_pos hp1 hgpos, hr3]
    · have hgneg : g < 0 := div_neg_of_neg_of_pos (by linarith) (by linarith)
      constructor
      · have : 0 < -p0 / g := div_pos_of_neg_of_neg (by linarith) hgneg
        nlinarith [hr2]
      · have : 0 < p1 / g := div_pos_of_neg_of_neg (by linarith) hgneg
        nlinarith [hr3]
  refine ⟨hbounds.1, hbounds.2, ?_⟩
  have hint := haff r (le_of_lt hbounds.1) (le_of_lt hbounds.2)
  rw [h0, h1, hr2, hr3] at hint
  have hz : p1 / g * p0 + -p0 / g * p1 = 0 := by
    field_simp
    ring
  rw [hz] at hint
  exact (mul_eq_zero.mp hint).resolve_left hxne

/-! ## Chains of adjacent anchors (C3 support) -/

theorem chain'_conj {α : Type} {R S : α → α → Prop} {l : List α}
    (hR : List.Chain' R l) (hS : List.Chain' S l) :
    List.Chain' (fun a b => R a b ∧ S a b) l := by
  rw [List.chain'_iff_get] at hR hS ⊢
  exact fun i h => ⟨hR i h, hS i h⟩

/-- In a sorted list, every element is on one side of each adjacent pair. -/
theorem sorted_adjacent_split {l : List ℚ} (hs : l.Sorted (· ≤ ·)) :
    List.Chain' (fun x0 x1 => ∀ c ∈ l, c ≤ x0 ∨ x1 ≤ c) l := by
  rw [List.chain'_iff_get]
  intro i hi c hc
  obtain ⟨j, hj⟩ := List.mem_iff_get.mp hc
  rcases le_or_lt j.1 i with hji | hji
  · left
    rw [← hj]
    exact hs.rel_get_of_le (by rw [Fin.le_def]; exact hji)
  · right
    rw [← hj]
    exact hs.rel_get_of_le (by rw [Fin.le_def]; exact hji)

theorem chain'_zip_map {g : ℚ → ℚ} {R : ℚ → ℚ → Prop} {S : ℚ × ℚ → ℚ × ℚ → Prop}
    (hRS : ∀ x y, R x y → S (x, g x) (y, g y)) :
    ∀ {l : List ℚ}, List.Chain' R l → List.Chain' S (l.zip (l.map g)) := by
  intro l
  induction l with
  | nil => intro _; simp
  | cons x t ih =>
    intro h
    rw [List.map_cons, List.zip_cons_cons]
    cases t with
    | nil => simp
    | cons y t' =>
      rw [List.map_cons, List.zip_cons_cons]
      refine List.chain'_cons.mpr ⟨hRS x y (List.chain'_cons.mp h).1, ?_⟩
      have h2 := ih (List.chain'_cons.mp h).2
      rw [List.map_cons, List.zip_cons_cons] at h2
      exact h2

/-- A successful `anchorProfits` forces all positions nonzero and exhibits the
profit list as the pointwise value of the payoff at the anchors. -/
theorem anchorProfits_map {st : Optionstat} {prices : List ℚ}
    (hp : st.anchorProfits = some prices) (hne : st.anchors ≠ []) :
    (∀ l ∈ st.option_trades, l.position ≠ 0) ∧
    prices = st.anchors.map (totalProfitVal st.option_trades) := by
  rcases hanch : st.anchors with _ | ⟨a0, arest⟩
  · exact absurd hanch hne
  · have hp2 := hp
    rw [Optionstat.anchorProfits, hanch] at hp2
    obtain ⟨y, ys, hf0, -, -⟩ := mapOpt_cons_some hp2
    have hpos := totalProfit_position_ne hf0
    refine ⟨hpos, ?_⟩
    have h2 := mapOpt_eq_map (f := totalProfit st.option_trades)
      (g := totalProfitVal st.option_trades) st.anchors
      fun x _ => totalProfit_eq_val hpos x
    have hp3 := hp
    rw [Optionstat.anchorProfits, h2, hanch] at hp3
    exact (Option.some.inj hp3).symm

/-- Soundness of the break-even scan: on a pair list whose first components
are nondecreasing, whose second components are the values of `F`, and where
`F` is affine on every adjacent segment, every returned root is an exact zero
of `F`, lies strictly above the first anchor, and the returned list is
strictly increasing. -/
theorem breakEvenScan_sound {F : ℚ → ℚ} :
    ∀ {pairs : List (ℚ × ℚ)},
    List.Chain' (fun A B : ℚ × ℚ => A.1 ≤ B.1 ∧ A.2 = F A.1 ∧ B.2 = F B.1 ∧
      ∀ x, A.1 ≤ x → x ≤ B.1 →
        (B.1 - A.1) * F x = (B.1 - x) * F A.1 + (x - A.1) * F B.1) pairs →
    ∀ {bes : List ℚ}, breakEvenScan pairs = Except.ok bes →
    (∀ r ∈ bes, F r = 0 ∧ ∀ A ∈ pairs.head?, A.1 < r) ∧
    List.Chain' (· < ·) bes := by
  intro pairs
  induction pairs with
  | nil =>
    intro _ bes h
    obtain rfl : bes = [] := (Except.ok.inj h).symm
    exact ⟨fun r hr => absurd hr (List.not_mem_nil r), List.chain'_nil⟩
  | cons P tail ih =>
    intro hchain bes h
    cases tail with
    | nil =>
      obtain ⟨x0, p0⟩ := P
      obtain rfl : bes = [] := (Except.ok.inj h).symm
      exact ⟨fun r hr => absurd hr (List.not_mem_nil r), List.chain'_nil⟩
    | cons Q rest =>
      obtain ⟨x0, p0⟩ := P
      obtain ⟨x1, p1⟩ := Q
      obtain ⟨hPQ, hchain'⟩ := List.chain'_cons.mp hchain
      obtain ⟨hxle, hp0F, hp1F, haff⟩ := hPQ
      simp only [breakEvenScan] at h
      split_ifs at h with h1 h2 h3 h4 h5
      · obtain ⟨hall, hch⟩ := ih hchain' h
        refine ⟨fun r hr => ⟨(hall r hr).1, fun A hA => ?_⟩, hch⟩
        have hA' : A = (x0, p0) := Eq.symm (by simpa using hA)
        rw [hA']
        exact lt_of_le_of_lt hxle
          ((hall r hr).2 (x1, p1) (Option.mem_def.mpr rfl))
      · obtain ⟨hall, hch⟩ := ih hchain' h
        refine ⟨fun r hr => ⟨(hall r hr).1, fun A hA => ?_⟩, hch⟩
        have hA' : A = (x0, p0) := Eq.symm (by simpa using hA)
        rw [hA']
        exact lt_of_le_of_lt hxle
          ((hall r hr).2 (x1, p1) (Option.mem_def.mpr rfl))
      · cases hs : breakEvenScan ((x1, p1) :: rest) with
        | error e => rw [hs] at h; cases h
        | ok t =>
          rw [hs] at h
          simp only [Except.map] at h
          have hbes : bes
              = (-(p1 - (p1 - p0) / (x1 - x0) * x1) / ((p1 - p0) / (x1 - x0))) :: t :=
            (Except.ok.inj h).symm
          subst hbes
          have hx0x1 : x0 < x1 := lt_of_le_of_ne hxle fun hc => h4 hc.symm
          have hsign := sign_div_cases (fun hz => h2 (Or.inr hz)) (fun hz => h2 (Or.inl hz)) h3
          obtain ⟨hr0, hr1, hFr⟩ := interp_root hx0x1 hp0F.symm hp1F.symm haff hsign
          obtain ⟨hall, hch⟩ := ih hchain' hs
          constructor
          · intro r hr
            rcases List.mem_cons.mp hr with rfl | hr
            · refine ⟨hFr, fun A hA => ?_⟩
              have hA' : A = (x0, p0) := Eq.symm (by simpa using hA)
              rw [hA']
              exact hr0
            · refine ⟨(hall r hr).1, fun A hA => ?_⟩
              have hA' : A = (x0, p0) := Eq.symm (by simpa using hA)
              rw [hA']
              exact lt_of_le_of_lt hxle
                ((hall r hr).2 (x1, p1) (Option.mem_def.mpr rfl))
          · refine List.chain'_cons'.mpr ⟨fun b hb => ?_, hch⟩
            have hbmem : b ∈ t := List.mem_of_mem_head? hb
            exact lt_trans hr1 ((hall b hbmem).2 (x1, p1) (Option.mem_def.mpr rfl))

/-! ## C3: break-even roots are exact zeros, listed in ascending order -/

/-- C3 (amended): for a strategy built through `add_trade` (every leg's strike
is recorded) whose strikes are all nonnegative and whose `stat` succeeds,
every break-even value is an exact zero of the aggregate payoff under
rational arithmetic, and the break-even list is strictly ascending. -/
theorem stat_break_even_zeros (st st2 : Optionstat) (res : StatResult)
    (hleg : ∀ l ∈ st.option_trades, l.strike ∈ st.strike_prices)
    (hnn : ∀ c ∈ st.strike_prices, 0 ≤ c)
    (hok : st.stat = (st2, Except.ok res)) :
    (∀ r ∈ res.break_even, totalProfit st.option_trades r = some 0) ∧
    List.Chain' (· < ·) res.break_even := by
  have hres : st.statResult = Except.ok res := congrArg Prod.snd hok
  obtain ⟨k, prices, hgl, hp, hscan, -, -, -⟩ := statResult_ok_elim hres
  have hanch : st.anchors = 0 :: (st.strike_prices.insertionSort (· ≤ ·) ++ [k + 1]) := by
    unfold Optionstat.anchors; rw [hgl]
  have hne : st.anchors ≠ [] := by rw [hanch]; exact List.cons_ne_nil _ _
  obtain ⟨hpos, hmap⟩ := anchorProfits_map hp hne
  have hS : (st.strike_prices.insertionSort (· ≤ ·)).Sorted (· ≤ ·) :=
    List.sorted_insertionSort (· ≤ ·) st.strike_prices
  have hSnn : ∀ c ∈ st.strike_prices.insertionSort (· ≤ ·), 0 ≤ c :=
    fun c hc => hnn c ((List.mem_insertionSort (· ≤ ·)).mp hc)
  have hkmem : k ∈ st.strike_prices.insertionSort (· ≤ ·) := List.mem_of_mem_getLast? hgl
  have hk0 : (0 : ℚ) ≤ k := hSnn k hkmem
  have hkmax : ∀ c ∈ st.strike_prices.insertionSort (· ≤ ·), c ≤ k :=
    fun c hc => sorted_le_getLast hS hc hgl
  have hsorted : st.anchors.Sorted (· ≤ ·) := by
    rw [hanch, List.sorted_cons]
    constructor
    · intro b hb
      rcases List.mem_append.mp hb with hb | hb
      · exact hSnn b hb
      · rw [List.mem_singleton.mp hb]; linarith
    · rw [List.Sorted, List.pairwise_append]
      refine ⟨hS, List.sorted_singleton _, ?_⟩
      intro a ha b hb
      rw [List.mem_singleton.mp hb]
      linarith [hkmax a ha]
  have hchain0 : List.Chain'
      (fun x0 x1 => x0 ≤ x1 ∧ ∀ c ∈ st.anchors, c ≤ x0 ∨ x1 ≤ c) st.anchors :=
    chain'_conj (List.Pairwise.chain' hsorted) (sorted_adjacent_split hsorted)
  have hchain1 : List.Chain'
      (fun x0 x1 => x0 ≤ x1 ∧ ∀ l ∈ st.option_trades, l.strike ≤ x0 ∨ x1 ≤ l.strike)
      st.anchors := by
    refine List.Chain'.imp ?_ hchain0
    intro a b hab
    refine ⟨hab.1, fun l hl => hab.2 l.strike ?_⟩
    rw [hanch]
    have hmem : l.strike ∈ st.strike_prices.insertionSort (· ≤ ·) :=
      (List.mem_insertionSort (· ≤ ·)).mpr (hleg l hl)
    exact List.mem_cons_of_mem _ (List.mem_append_left _ hmem)
  have hzip : List.Chain'
      (fun A B : ℚ × ℚ => A.1 ≤ B.1 ∧ A.2 = totalProfitVal st.option_trades A.1 ∧
        B.2 = totalProfitVal st.option_trades B.1 ∧
        ∀ x, A.1 ≤ x → x ≤ B.1 →
          (B.1 - A.1) * totalProfitVal st.option_trades x
            = (B.1 - x) * totalProfitVal st.option_trades A.1
              + (x - A.1) * totalProfitVal st.option_trades B.1)
      (st.anchors.zip prices) := by
    rw [hmap]
    refine chain'_zip_map ?_ hchain1
    intro x y hxy
    exact ⟨hxy.1, rfl, rfl, fun z hz1 hz2 => totalProfitVal_affine hz1 hz2 hxy.2⟩
  obtain ⟨hall, hch⟩ := breakEvenScan_sound hzip hscan
  refine ⟨fun r hr => ?_, hch⟩
  rw [totalProfit_eq_val hpos r, (hall r hr).1]

/-- Witness for `stat_break_even_zeros`: the bull call spread of Scenario C,
whose single break-even 103 is an exact zero of the payoff. -/
theorem stat_break_even_zeros_witness :
    (∀ r ∈ (StatResult.mk 2 (PyFloat.fin 700) (PyFloat.fin (-300)) [103]).break_even,
      totalProfit bullCallSpread.option_trades r = some 0) ∧
    List.Chain' (· < ·)
      (StatResult.mk 2 (PyFloat.fin 700) (PyFloat.fin (-300)) [103]).break_even :=
  stat_break_even_zeros bullCallSpread
    { option_trades := [⟨100, 5, 1, "Call", 100⟩, ⟨110, 2, -1, "Call", 100⟩],
      strike_prices := [100, 110], contract_size := 100 }
    (StatResult.mk 2 (PyFloat.fin 700) (PyFloat.fin (-300)) [103])
    (by intro l hl
        simp only [bullCallSpread, Optionstat.init, Optionstat.add_trade,
          List.nil_append, List.cons_append, List.mem_cons, List.not_mem_nil, or_false] at hl ⊢
        rcases hl with rfl | rfl
        · norm_num
        · norm_num)
    (by intro c hc
        simp only [bullCallSpread, Optionstat.init, Optionstat.add_trade,
          List.nil_append, List.cons_append, List.mem_cons, List.not_mem_nil, or_false] at hc
        rcases hc with rfl | rfl
        · norm_num
        · norm_num)
    (by simp only [bullCallSpread, Optionstat.init, Optionstat.add_trade, Optionstat.stat,
          Optionstat.statResult, Optionstat.anchorProfits, Optionstat.anchors,
          totalProfit, mapOpt, Leg.get_profit, Leg.profitVal, Leg.price, breakEvenScan,
          listMax, listMin, List.insertionSort, List.orderedInsert,
          String.reduceEq, reduceIte]
        norm_num [breakEvenScan, Except.map])

/-- C3 (counterexample): the code accepts negative strikes, and then the
anchor sequence `[0, -10, -5, -4]` is not monotone. On `negStrikes` the stat
completes with `break_even = [-2, -6]`: the list is not ascending, and the
first reported root `-2` is not a zero of the payoff (the total profit there
is `-1`). -/
theorem stat_break_even_negative_strikes_counterexample :
    (negStrikes.stat).2
        = Except.ok (StatResult.mk 2 (PyFloat.fin 4) (PyFloat.fin (-1)) [-2, -6]) ∧
    totalProfit negStrikes.option_trades (-2) = some (-1) ∧
    ¬ ((-2 : ℚ) ≤ -6) := by
  refine ⟨?_, ?_, by norm_num⟩
  · simp only [negStrikes, Optionstat.init, Optionstat.add_trade, Optionstat.stat,
      Optionstat.statResult, Optionstat.anchorProfits, Optionstat.anchors,
      totalProfit, mapOpt, Leg.get_profit, Leg.profitVal, Leg.price, breakEvenScan,
      listMax, listMin, List.insertionSort, List.orderedInsert,
      String.reduceEq, reduceIte]
    norm_num [breakEvenScan, Except.map]
  · simp only [negStrikes, Optionstat.init, Optionstat.add_trade,
      totalProfit, mapOpt, Leg.get_profit, Leg.profitVal, Leg.price,
      String.reduceEq, reduceIte]
    norm_num
